import Mathlib

/-!
A verification development for a single-threaded event-loop library:
a timer subsystem (`Timer`, `TimerManager` from `event_loop/event_loop.py`,
and an older tuple-based `TimerManager` from the top-level `event_loop.py`,
modelled here with the `R` prefix), a reactor (`EventLoop`), stream framing
combinators (block / push-back / line readers) and a resynchronizing binary
`PacketReader`.

Modelling conventions:
* Clock values are exact rationals.  Where the duration of a callback is
  relevant, it is an explicit parameter `d`: time is assumed to advance only
  while a callback runs, so a `now()` sample taken before the callback reads
  `t` and one taken after it reads `t + d`.
* A timer callback may reset or cancel its own timer; its effect on the
  timer's expiry field is the explicit parameter `eff`.  A passive callback
  is `eff = id`.
* Python byte strings are `List ℕ` (the sources are Python 2, where `str`
  is a byte string); the newline character is `10`.
-/

/-- A timer from `event_loop/event_loop.py`:  `_expiry` (`none` is Python's
`None`, the cancelled/dead sentinel), `_interval` and `_repeat`.  The field
`_repeat` is spelled `repeats` because `repeat` is reserved in Lean. -/
structure Timer where
  expiry : Option ℚ
  interval : ℚ
  repeats : Bool
  deriving Repr, DecidableEq

/-- The observable outcome of one `Timer.run()` call: the timer afterwards,
whether the callback was invoked during the call, and the boolean the Python
method returns (whether the timer will trigger again). -/
structure TickResult where
  timer : Timer
  fired : Bool
  alive : Bool
  deriving Repr, DecidableEq

/-- One call of `Timer.run()` (`event_loop/event_loop.py`).  `t` is the clock
reading during the call: the source samples `now()` twice (the due check and
the catch-up computation) and both samples happen before the callback is
invoked, so both read `t` and the result does not depend on how long the
callback takes.  `eff` is the callback's effect on the expiry field (the
source updates `_expiry` first, then calls the callback, precisely so that a
`reset()`/`cancel()` made by the callback overrides the update). -/
def Timer.run (tm : Timer) (t : ℚ) (eff : Option ℚ → Option ℚ) : TickResult :=
  match tm.expiry with
  | none => ⟨tm, false, false⟩
  | some e =>
    if t < e then ⟨tm, false, true⟩
    else
      -- `times = (self._now() - self._expiry) // self._interval + 1`
      let advanced : Option ℚ :=
        if tm.repeats then some (e + ((⌊(t - e) / tm.interval⌋ + 1 : ℤ) : ℚ) * tm.interval)
        else none
      let final := eff advanced
      ⟨{ tm with expiry := final }, true, final.isSome⟩

/-- `Timer.sleep_time()`: `Infinity` (here `⊤`) for a cancelled or dead
timer, else `max(expiry - now(), 0)`. -/
def Timer.sleep_time (tm : Timer) (t : ℚ) : WithTop ℚ :=
  match tm.expiry with
  | none => ⊤
  | some e => (max (e - t) 0 : ℚ)

/-- `TimerManager` of `event_loop/event_loop.py`: an (ordered, as a Python
list) collection of timers. -/
structure TimerManager where
  timers : List Timer
  deriving Repr, DecidableEq

/-- Helper for `TimerManager.run`: run each timer in order, keeping those
whose `run()` returned `True`, and record the positions (indices counted
from `i`) of the timers whose callback fired, in firing order.  Callbacks
are modelled as instantaneous and passive at the manager level. -/
def TimerManager.run_trace_from (t : ℚ) : ℕ → List Timer → List Timer × List ℕ
  | _, [] => ([], [])
  | i, tm :: rest =>
    let r := tm.run t id
    let (rest', fired) := TimerManager.run_trace_from t (i + 1) rest
    ((if r.alive then [r.timer] else []) ++ rest',
     (if r.fired then [i] else []) ++ fired)

/-- `TimerManager.run()`:
`self._timers = [timer for timer in self._timers if timer.run()]`,
together with the list of indices of the timers whose callback fired. -/
def TimerManager.run_trace (mgr : TimerManager) (t : ℚ) : TimerManager × List ℕ :=
  let (timers', fired) := TimerManager.run_trace_from t 0 mgr.timers
  (⟨timers'⟩, fired)

/-- The retained-timers part of `TimerManager.run()`. -/
def TimerManager.run (mgr : TimerManager) (t : ℚ) : TimerManager :=
  (mgr.run_trace t).1

/-- `TimerManager.sleep_time()`:
`min(itertools.chain([Infinity], (timer.sleep_time() for timer in self._timers)))`,
i.e. a fold of binary `min` seeded with `Infinity`; no special branch for an
empty collection. -/
def TimerManager.sleep_time (mgr : TimerManager) (t : ℚ) : WithTop ℚ :=
  (mgr.timers.map (fun tm => tm.sleep_time t)).foldl min ⊤

/-- A timer of the top-level `event_loop.py` `TimerManager`: the tuple
`(next, interval, callback)` where `interval` is `None` for a non-repeating
timer. -/
structure RTimer where
  next : ℚ
  interval : Option ℚ
  deriving Repr, DecidableEq

/-- One loop-body step of the top-level `TimerManager.run()` for a single
timer entry.  `t` is the clock reading at the `next > self._now()` check and
`d` is the duration of the callback, so the fresh `self._now()` sample that
the source takes after `callback()` ("since callback() may have taken time")
reads `t + d`.  Returns the replacement entry (`none` when the entry is
marked for removal) and whether the callback fired.  The `i = 0` branch
mirrors Python's falsy test `if interval:`. -/
def RTimer.step (tm : RTimer) (t d : ℚ) : Option RTimer × Bool :=
  if tm.next > t then (some tm, false)
  else
    match tm.interval with
    | some i =>
      if i = 0 then (none, true)
      else
        -- `times = (self._now() - next) // interval + 1`, sampled after the callback
        (some ⟨tm.next + ((⌊(t + d - tm.next) / i⌋ + 1 : ℤ) : ℚ) * i, some i⟩, true)
    | none => (none, true)

/-- The top-level `TimerManager` (`event_loop.py`). -/
structure RTimerManager where
  timers : List RTimer
  deriving Repr, DecidableEq

/-- The top-level `TimerManager.run()`: every entry is stepped in order; the
deferred `del` of the marked indices makes the net effect a `filterMap`.
Callbacks are modelled as instantaneous at the manager level (`d = 0`). -/
def RTimerManager.run (mgr : RTimerManager) (t : ℚ) : RTimerManager :=
  ⟨mgr.timers.filterMap (fun tm => (tm.step t 0).1)⟩

/-- The top-level `TimerManager.sleep_time()`:
`earliest, _, _ = min(self._timers)` raises `ValueError` on an empty list,
else returns `max(earliest - now(), 0)` (written `sleep if sleep > 0 else 0`
in the source). -/
def RTimerManager.sleep_time (mgr : RTimerManager) (t : ℚ) : Except String ℚ :=
  match mgr.timers with
  | [] => .error "ValueError: min() arg is an empty sequence"
  | tm :: rest =>
    let earliest := (rest.map RTimer.next).foldl min tm.next
    let sleep := earliest - t
    .ok (if sleep > 0 then sleep else 0)

/-- Modelled from the spec: the repeating-timer catch-up target it mandates,
`expiry += (floor((now() - expiry) / interval) + 1) * interval` with the
`now()` sample "taken after the callback returns", i.e. reading `t + d` when
the callback took `d`. -/
def timer_catch_up_spec (e i t d : ℚ) : ℚ :=
  e + ((⌊(t + d - e) / i⌋ + 1 : ℤ) : ℚ) * i

/-- C1: a repeating timer with positive interval that is due (`now() ≥ expiry`)
when `run()` is called fires its callback exactly once during that call (the
`fired` flag of the single call), and its new expiry is the old expiry plus a
whole number — at least one — of intervals; this holds both for `Timer.run`
of `event_loop/event_loop.py` (with a passive callback) and for the per-entry
step of `TimerManager.run` in the top-level `event_loop.py` (for any callback
duration `d ≥ 0`). -/
theorem repeating_timer_fires_once_on_boundary :
    (∀ (tm : Timer) (e t : ℚ) (eff : Option ℚ → Option ℚ),
      tm.repeats = true → 0 < tm.interval → tm.expiry = some e → e ≤ t → eff = id →
        (tm.run t eff).fired = true ∧
        ∃ k : ℤ, 1 ≤ k ∧ (tm.run t eff).timer.expiry = some (e + (k : ℚ) * tm.interval))
  ∧
    (∀ (e i t d : ℚ), 0 < i → 0 ≤ d → e ≤ t →
        (RTimer.step ⟨e, some i⟩ t d).2 = true ∧
        ∃ k : ℤ, 1 ≤ k ∧
          (RTimer.step ⟨e, some i⟩ t d).1 = some ⟨e + (k : ℚ) * i, some i⟩) := by
  constructor
  · intro tm e t eff hrep hint hexp hdue heff
    subst heff
    have hnot : ¬ t < e := not_lt.mpr hdue
    have hfl : (0 : ℤ) ≤ ⌊(t - e) / tm.interval⌋ :=
      Int.floor_nonneg.mpr (div_nonneg (by linarith) hint.le)
    refine ⟨?_, ⟨⌊(t - e) / tm.interval⌋ + 1, by omega, ?_⟩⟩ <;>
      simp [Timer.run, hexp, hrep, hnot]
  · intro e i t d hi hd hdue
    have hnot : ¬ e > t := not_lt.mpr hdue
    have hi0 : ¬ i = 0 := ne_of_gt hi
    have hfl : (0 : ℤ) ≤ ⌊(t + d - e) / i⌋ :=
      Int.floor_nonneg.mpr (div_nonneg (by linarith) hi.le)
    refine ⟨?_, ⟨⌊(t + d - e) / i⌋ + 1, by omega, ?_⟩⟩ <;>
      simp [RTimer.step, hnot, hi0]

/-- Witness for `repeating_timer_fires_once_on_boundary`: a 10-unit repeating
timer due since t = 10 and run at t = 34, and a due tuple timer with interval
2 whose callback takes 11 units. -/
theorem repeating_timer_fires_once_on_boundary_witness :
    ((⟨some 10, 10, true⟩ : Timer).repeats = true ∧ (0 : ℚ) < 10 ∧
      (⟨some 10, 10, true⟩ : Timer).expiry = some 10 ∧ (10 : ℚ) ≤ 34) ∧
    ((Timer.run ⟨some 10, 10, true⟩ 34 id).fired = true ∧
      ∃ k : ℤ, 1 ≤ k ∧
        (Timer.run ⟨some 10, 10, true⟩ 34 id).timer.expiry = some (10 + (k : ℚ) * 10)) ∧
    ((0 : ℚ) < 2 ∧ (0 : ℚ) ≤ 11 ∧ (2 : ℚ) ≤ 2) ∧
    ((RTimer.step ⟨2, some 2⟩ 2 11).2 = true ∧
      ∃ k : ℤ, 1 ≤ k ∧
        (RTimer.step ⟨2, some 2⟩ 2 11).1 = some ⟨2 + (k : ℚ) * 2, some 2⟩) :=
  ⟨⟨rfl, by norm_num, rfl, by norm_num⟩,
   repeating_timer_fires_once_on_boundary.1 ⟨some 10, 10, true⟩ 10 34 id rfl
     (by norm_num) rfl (by norm_num) rfl,
   ⟨by norm_num, by norm_num, by norm_num⟩,
   repeating_timer_fires_once_on_boundary.2 2 2 2 11 (by norm_num) (by norm_num)
     (by norm_num)⟩

/-- C2 counterexample: in `Timer.run` of `event_loop/event_loop.py` the
missed-interval count is computed before the callback is invoked.  A repeating
timer with expiry 0 and interval 1, run at t = 0 with a callback that takes 5
time units, ends with expiry 1, whereas the spec's post-callback-sample
formula mandates 6 (and indeed the package's own `test_long_callback` expects
the pre-callback behaviour). -/
theorem timer_catch_up_precallback_counterexample :
    (Timer.run ⟨some 0, 1, true⟩ 0 id).timer.expiry = some 1 ∧
    timer_catch_up_spec 0 1 0 5 = 6 ∧ ((1 : ℚ) = 6 → False) := by
  refine ⟨?_, ?_, by norm_num⟩ <;> norm_num [Timer.run, timer_catch_up_spec]

/-- C2 amended: in the top-level `event_loop.py`, `TimerManager.run` computes
the missed-interval count from a fresh `now()` sample taken after the
callback returns (reading `t + d` for a callback of duration `d`), exactly
the spec's formula; in `event_loop/event_loop.py`, `Timer.run` instead
computes it from the `now()` sample taken before the callback is invoked
(the spec's formula with `d = 0`), independently of the callback's
duration. -/
theorem timer_catch_up_sample_points :
    (∀ (e i t d : ℚ), 0 < i → e ≤ t →
        (RTimer.step ⟨e, some i⟩ t d).1 = some ⟨timer_catch_up_spec e i t d, some i⟩)
  ∧
    (∀ (tm : Timer) (e t : ℚ), tm.repeats = true → tm.expiry = some e → e ≤ t →
        (tm.run t id).timer.expiry = some (timer_catch_up_spec e tm.interval t 0)) := by
  constructor
  · intro e i t d hi hdue
    have hnot : ¬ e > t := not_lt.mpr hdue
    have hi0 : ¬ i = 0 := ne_of_gt hi
    simp [RTimer.step, hnot, hi0, timer_catch_up_spec]
  · intro tm e t hrep hexp hdue
    have hnot : ¬ t < e := not_lt.mpr hdue
    simp [Timer.run, hexp, hrep, hnot, timer_catch_up_spec]

/-- Witness for `timer_catch_up_sample_points` at concrete inputs. -/
theorem timer_catch_up_sample_points_witness :
    ((0 : ℚ) < 2 ∧ (2 : ℚ) ≤ 2 ∧
      (RTimer.step ⟨2, some 2⟩ 2 11).1 = some ⟨timer_catch_up_spec 2 2 2 11, some 2⟩) ∧
    ((⟨some 10, 10, true⟩ : Timer).repeats = true ∧
      (⟨some 10, 10, true⟩ : Timer).expiry = some 10 ∧ (10 : ℚ) ≤ 34 ∧
      (Timer.run ⟨some 10, 10, true⟩ 34 id).timer.expiry =
        some (timer_catch_up_spec 10 10 34 0)) :=
  ⟨⟨by norm_num, by norm_num,
    timer_catch_up_sample_points.1 2 2 2 11 (by norm_num) (by norm_num)⟩,
   ⟨rfl, rfl, by norm_num,
    timer_catch_up_sample_points.2 ⟨some 10, 10, true⟩ 10 34 rfl rfl (by norm_num)⟩⟩

lemma foldl_min_le_init {α : Type _} [LinearOrder α] (a : α) (l : List α) :
    l.foldl min a ≤ a := by
  induction l generalizing a with
  | nil => exact le_refl a
  | cons x xs ih => exact le_trans (ih (min a x)) (min_le_left a x)

lemma foldl_min_le_mem {α : Type _} [LinearOrder α] (a : α) (l : List α)
    (x : α) (hx : x ∈ l) : l.foldl min a ≤ x := by
  induction l generalizing a with
  | nil => cases hx
  | cons y ys ih =>
    rcases List.mem_cons.mp hx with h | h
    · subst h
      exact le_trans (foldl_min_le_init (min a x) ys) (min_le_right a x)
    · exact ih (min a y) h

lemma foldl_min_attained {α : Type _} [LinearOrder α] (a : α) (l : List α) :
    l.foldl min a = a ∨ ∃ x ∈ l, l.foldl min a = x := by
  induction l generalizing a with
  | nil => exact Or.inl rfl
  | cons y ys ih =>
    rcases ih (min a y) with h | ⟨x, hx, hfx⟩
    · rcases min_cases a y with ⟨hm, _⟩ | ⟨hm, _⟩
      · exact Or.inl (by simpa [hm] using h)
      · exact Or.inr ⟨y, List.mem_cons_self _ _, by simpa [hm] using h⟩
    · exact Or.inr ⟨x, List.mem_cons_of_mem _ hx, hfx⟩

/-- C7 counterexample: the top-level `event_loop.py` `TimerManager.sleep_time`
on an empty collection does not return `+infinity`: it takes `min` of an empty
sequence and raises `ValueError` (as its own docstring says). -/
theorem rtimer_manager_sleep_time_empty_raises :
    RTimerManager.sleep_time ⟨[]⟩ 0 =
      .error "ValueError: min() arg is an empty sequence" := rfl

/-- C7 amended: `TimerManager.sleep_time` of `event_loop/event_loop.py`
returns the minimum of `sleep_time()` over all tracked timers and `+infinity`
(`⊤`) when none are tracked, with no exception and no special emptiness
branch; the top-level `event_loop.py` version instead raises `ValueError`
when no timers are tracked. -/
theorem timer_manager_sleep_time_min :
    ∀ (mgr : TimerManager) (t : ℚ),
      (mgr.sleep_time t = ⊤ ↔ ∀ tm ∈ mgr.timers, tm.sleep_time t = ⊤) ∧
      (∀ tm ∈ mgr.timers, mgr.sleep_time t ≤ tm.sleep_time t) ∧
      (mgr.timers ≠ [] → ∃ tm ∈ mgr.timers, mgr.sleep_time t = tm.sleep_time t) ∧
      (mgr.timers = [] → mgr.sleep_time t = ⊤) := by
  intro mgr t
  have hdef : mgr.sleep_time t =
      (mgr.timers.map (fun tm => tm.sleep_time t)).foldl min ⊤ := rfl
  have hle : ∀ tm ∈ mgr.timers, mgr.sleep_time t ≤ tm.sleep_time t := by
    intro tm htm
    rw [hdef]
    exact foldl_min_le_mem _ _ _ (List.mem_map_of_mem _ htm)
  refine ⟨⟨?_, ?_⟩, hle, ?_, ?_⟩
  · intro htop tm htm
    exact top_le_iff.mp (htop ▸ hle tm htm)
  · intro hall
    rw [hdef]
    rcases foldl_min_attained (⊤ : WithTop ℚ) (mgr.timers.map (fun tm => tm.sleep_time t))
      with h | ⟨x, hx, hfx⟩
    · exact h
    · rcases List.mem_map.mp hx with ⟨tm, htm, rfl⟩
      exact hfx.trans (hall tm htm)
  · intro hne
    rcases foldl_min_attained (⊤ : WithTop ℚ) (mgr.timers.map (fun tm => tm.sleep_time t))
      with h | ⟨x, hx, hfx⟩
    · rcases List.exists_mem_of_ne_nil _ hne with ⟨tm, htm⟩
      have hs : mgr.sleep_time t = ⊤ := hdef.trans h
      have htop : tm.sleep_time t = ⊤ := top_le_iff.mp (hs ▸ hle tm htm)
      exact ⟨tm, htm, by rw [hs, htop]⟩
    · rcases List.mem_map.mp hx with ⟨tm, htm, rfl⟩
      exact ⟨tm, htm, hdef.trans hfx⟩
  · intro hnil
    rw [hdef, hnil]
    rfl

/-- Witness for `timer_manager_sleep_time_min`: an empty manager yields `⊤`,
and a singleton manager attains its timer's `sleep_time`. -/
theorem timer_manager_sleep_time_min_witness :
    (TimerManager.sleep_time ⟨[]⟩ 0 = ⊤) ∧
    ((⟨[⟨some 30, 30, false⟩]⟩ : TimerManager).timers ≠ [] ∧
      ∃ tm ∈ (⟨[⟨some 30, 30, false⟩]⟩ : TimerManager).timers,
        TimerManager.sleep_time ⟨[⟨some 30, 30, false⟩]⟩ 22 = tm.sleep_time 22) :=
  ⟨(timer_manager_sleep_time_min ⟨[]⟩ 0).2.2.2 rfl,
   by simp, (timer_manager_sleep_time_min ⟨[⟨some 30, 30, false⟩]⟩ 22).2.2.1 (by simp)⟩

lemma mem_run_trace_from (t : ℚ) :
    ∀ (l : List Timer) (i : ℕ) (tm' : Timer),
      tm' ∈ (TimerManager.run_trace_from t i l).1 →
      ∃ tm ∈ l, (tm.run t id).alive = true ∧ tm' = (tm.run t id).timer := by
  intro l
  induction l with
  | nil => intro i tm' h; simp [TimerManager.run_trace_from] at h
  | cons tm rest ih =>
    intro i tm' h
    simp only [TimerManager.run_trace_from] at h
    rcases List.mem_append.mp h with h | h
    · by_cases halive : (tm.run t id).alive
      · simp [halive] at h
        exact ⟨tm, List.mem_cons_self _ _, halive, h⟩
      · simp [halive] at h
    · rcases ih (i + 1) tm' h with ⟨tm₀, htm₀, ha, he⟩
      exact ⟨tm₀, List.mem_cons_of_mem _ htm₀, ha, he⟩

/-- C8: after a dispatch pass, every timer still contained in the collection
is alive: for `TimerManager.run` of `event_loop/event_loop.py` (with passive
callbacks) every retained timer has a non-sentinel expiry and is repeating or
not yet due, so fired non-repeating timers and cancelled timers have been
removed; likewise every entry the top-level `event_loop.py` manager retains
is repeating or not yet due. -/
theorem dispatch_retains_only_live :
    (∀ (mgr : TimerManager) (t : ℚ) (tm' : Timer), tm' ∈ (mgr.run t).timers →
        tm'.expiry ≠ none ∧ (tm'.repeats = true ∨ ∃ e, tm'.expiry = some e ∧ t < e))
  ∧
    (∀ (mgr : RTimerManager) (t : ℚ) (tm' : RTimer), tm' ∈ (mgr.run t).timers →
        (∃ i, tm'.interval = some i ∧ i ≠ 0) ∨ t < tm'.next) := by
  constructor
  · intro mgr t tm' h
    rcases mem_run_trace_from t mgr.timers 0 tm' h with ⟨tm, _, halive, rfl⟩
    cases hexp : tm.expiry with
    | none => simp [Timer.run, hexp] at halive
    | some e =>
      by_cases hlt : t < e
      · have heq : (tm.run t id).timer = tm := by simp [Timer.run, hexp, hlt]
        rw [heq]
        exact ⟨by simp [hexp], Or.inr ⟨e, hexp, hlt⟩⟩
      · by_cases hrep : tm.repeats = true
        · have heq : (tm.run t id).timer.expiry =
              some (e + ((⌊(t - e) / tm.interval⌋ + 1 : ℤ) : ℚ) * tm.interval) := by
            simp [Timer.run, hexp, hlt, hrep]
          have hrq : (tm.run t id).timer.repeats = tm.repeats := by
            simp [Timer.run, hexp, hlt]
          exact ⟨by rw [heq]; simp, Or.inl (hrq.trans hrep)⟩
        · simp [Timer.run, hexp, if_neg hlt, hrep] at halive
  · intro mgr t tm' h
    rcases List.mem_filterMap.mp h with ⟨tm, _, hstep⟩
    by_cases hgt : tm.next > t
    · simp only [RTimer.step, if_pos hgt, Option.some.injEq] at hstep
      exact Or.inr (hstep ▸ hgt)
    · cases hint : tm.interval with
      | none => simp [RTimer.step, if_neg hgt, hint] at hstep
      | some i =>
        by_cases hi : i = 0
        · simp [RTimer.step, if_neg hgt, hint, hi] at hstep
        · simp only [RTimer.step, if_neg hgt, hint, if_neg hi, Option.some.injEq] at hstep
          exact Or.inl ⟨i, by rw [← hstep], hi⟩

/-- Witness for `dispatch_retains_only_live`: a pending non-repeating timer
survives a pass at t = 0, and a due repeating tuple timer is retained
re-armed. -/
theorem dispatch_retains_only_live_witness :
    ((⟨some 30, 30, false⟩ : Timer) ∈ (TimerManager.run ⟨[⟨some 30, 30, false⟩]⟩ 0).timers ∧
      (⟨some 30, 30, false⟩ : Timer).expiry ≠ none ∧
      ((⟨some 30, 30, false⟩ : Timer).repeats = true ∨
        ∃ e, (⟨some 30, 30, false⟩ : Timer).expiry = some e ∧ (0 : ℚ) < e)) ∧
    ((⟨10, some 5⟩ : RTimer) ∈ (RTimerManager.run ⟨[⟨5, some 5⟩]⟩ 5).timers ∧
      ((∃ i, (⟨10, some 5⟩ : RTimer).interval = some i ∧ i ≠ 0) ∨ (5 : ℚ) < 10)) := by
  have h1 : (⟨some 30, 30, false⟩ : Timer) ∈
      (TimerManager.run ⟨[⟨some 30, 30, false⟩]⟩ 0).timers := by
    norm_num [TimerManager.run, TimerManager.run_trace, TimerManager.run_trace_from,
      Timer.run]
  have h2 : (⟨10, some 5⟩ : RTimer) ∈ (RTimerManager.run ⟨[⟨5, some 5⟩]⟩ 5).timers := by
    norm_num [RTimerManager.run, RTimer.step]
  exact ⟨⟨h1, dispatch_retains_only_live.1 ⟨[⟨some 30, 30, false⟩]⟩ 0 _ h1⟩,
    ⟨h2, dispatch_retains_only_live.2 ⟨[⟨5, some 5⟩]⟩ 5 _ h2⟩⟩

/-- Lookup in the reactor's `_readers` dict (descriptor → callback identity),
modelled as an association list. -/
def lookup_reader : List (ℕ × ℕ) → ℕ → Option ℕ
  | [], _ => none
  | (k, v) :: rest, fd => if k = fd then some v else lookup_reader rest fd

/-- `EventLoop.watch_for_reading`: `self._readers[file_descriptor] = callback`
— dict assignment, replacing the entry of an existing key (a descriptor
appears at most once) and appending a new key. -/
def watch_for_reading (readers : List (ℕ × ℕ)) (fd cb : ℕ) : List (ℕ × ℕ) :=
  if (lookup_reader readers fd).isSome then
    readers.map (fun p => if p.1 = fd then (fd, cb) else p)
  else readers ++ [(fd, cb)]

/-- The dispatch loop ending `EventLoop.run`'s body:
`for fd in ready: self._readers[fd](fd)`.  The callback for each ready
descriptor is looked up in the live mapping at the moment it is dispatched.
`sem cb fd readers` is the mapping after callback `cb`, invoked with `fd`,
has performed its `watch_for_reading` mutations (a passive callback returns
the mapping unchanged).  Returns the final mapping and the trace of
`(descriptor, callback)` invocations in dispatch order; a missing key is
Python's `KeyError`. -/
def dispatch_readers (sem : ℕ → ℕ → List (ℕ × ℕ) → List (ℕ × ℕ)) :
    List (ℕ × ℕ) → List ℕ → Except String (List (ℕ × ℕ) × List (ℕ × ℕ))
  | readers, [] => .ok (readers, [])
  | readers, fd :: rest =>
    match lookup_reader readers fd with
    | none => .error "KeyError"
    | some cb =>
      match dispatch_readers sem (sem cb fd readers) rest with
      | .error e => .error e
      | .ok (rs, trace) => .ok (rs, (fd, cb) :: trace)

/-- Modelled from the spec: the dispatch in which "the set of callbacks
dispatched for an iteration's ready descriptors is the one in effect when
that iteration's wait was entered" — every callback lookup is made in the
wait-entry mapping `entry` even while mutations accumulate in the live
mapping. -/
def dispatch_readers_snapshot (sem : ℕ → ℕ → List (ℕ × ℕ) → List (ℕ × ℕ))
    (entry : List (ℕ × ℕ)) :
    List (ℕ × ℕ) → List ℕ → Except String (List (ℕ × ℕ) × List (ℕ × ℕ))
  | readers, [] => .ok (readers, [])
  | readers, fd :: rest =>
    match lookup_reader entry fd with
    | none => .error "KeyError"
    | some cb =>
      match dispatch_readers_snapshot sem entry (sem cb fd readers) rest with
      | .error e => .error e
      | .ok (rs, trace) => .ok (rs, (fd, cb) :: trace)

/-- An observable callback invocation during one loop iteration: a timer
callback (by position in the manager) or a reader callback (descriptor and
callback identity). -/
inductive Ev where
  | timer (idx : ℕ)
  | reader (fd : ℕ) (cb : ℕ)
  deriving Repr, DecidableEq

/-- The reactor: one `TimerManager` plus the `_readers` mapping. -/
structure EventLoop where
  timers : TimerManager
  readers : List (ℕ × ℕ)
  deriving Repr, DecidableEq

/-- One iteration of `EventLoop.run`'s `while` body.  `selectReady` is what
`select.select` reports ready (a subset of the watched descriptors, in the
primitive's order); when no descriptor is watched the source instead does a
plain `time.sleep` and `ready = []`, after first asserting that the timeout
is not infinite (`'Running without any event'`).  After the wait the source
unconditionally runs `self._timers.run()` and then dispatches the ready
descriptors.  Timer callbacks are modelled as instantaneous, passive and not
touching the reader mapping; `t` is the clock reading for the iteration. -/
def EventLoop.iterate (sem : ℕ → ℕ → List (ℕ × ℕ) → List (ℕ × ℕ))
    (loop : EventLoop) (t : ℚ) (selectReady : List ℕ) :
    Except String (EventLoop × List Ev) :=
  if loop.readers = [] ∧ loop.timers.sleep_time t = ⊤ then
    .error "Running without any event"
  else
    match dispatch_readers sem loop.readers
        (if loop.readers = [] then [] else selectReady) with
    | .error e => .error e
    | .ok rs =>
      .ok (⟨(loop.timers.run_trace t).1, rs.1⟩,
        (loop.timers.run_trace t).2.map Ev.timer ++
          rs.2.map (fun p => Ev.reader p.1 p.2))

lemma dispatch_readers_fds (sem : ℕ → ℕ → List (ℕ × ℕ) → List (ℕ × ℕ)) :
    ∀ (ready : List ℕ) (readers rs trace : List (ℕ × ℕ)),
      dispatch_readers sem readers ready = .ok (rs, trace) →
      trace.map Prod.fst = ready := by
  intro ready
  induction ready with
  | nil =>
    intro readers rs trace h
    simp only [dispatch_readers] at h
    cases h
    rfl
  | cons fd rest ih =>
    intro readers rs trace h
    cases hl : lookup_reader readers fd with
    | none => simp only [dispatch_readers, hl] at h; cases h
    | some cb =>
      simp only [dispatch_readers, hl] at h
      cases hd : dispatch_readers sem (sem cb fd readers) rest with
      | error e => rw [hd] at h; cases h
      | ok p =>
        rw [hd] at h
        cases h
        simpa using ih _ _ _ hd

/-- C6: in every iteration of `EventLoop.run`, the timer dispatch runs
unconditionally after the wait returns — the retained timers are exactly
`TimerManager.run`'s result whatever `select` reported, readiness or
timeout — and the iteration's event trace is all timer callbacks followed by
all reader callbacks, the reader callbacks covering the ready descriptors in
the wait primitive's reported order. -/
theorem timers_dispatched_unconditionally_before_readers :
    ∀ (sem : ℕ → ℕ → List (ℕ × ℕ) → List (ℕ × ℕ)) (loop : EventLoop) (t : ℚ)
      (selectReady : List ℕ) (st' : EventLoop) (evs : List Ev),
      EventLoop.iterate sem loop t selectReady = .ok (st', evs) →
      st'.timers = (loop.timers.run_trace t).1 ∧
      ∃ tEvs rEvs, evs = tEvs ++ rEvs ∧
        (∀ e ∈ tEvs, ∃ i, e = Ev.timer i) ∧
        (∀ e ∈ rEvs, ∃ fd cb, e = Ev.reader fd cb) ∧
        rEvs.map (fun e => match e with | Ev.timer i => i | Ev.reader fd _ => fd) =
          (if loop.readers = [] then [] else selectReady) := by
  intro sem loop t selectReady st' evs h
  unfold EventLoop.iterate at h
  split at h
  · cases h
  · cases hd : dispatch_readers sem loop.readers
        (if loop.readers = [] then [] else selectReady) with
    | error e => rw [hd] at h; cases h
    | ok rs =>
      rw [hd] at h
      cases h
      refine ⟨rfl, (loop.timers.run_trace t).2.map Ev.timer,
        rs.2.map (fun p => Ev.reader p.1 p.2), rfl, ?_, ?_, ?_⟩
      · intro e he
        rcases List.mem_map.mp he with ⟨i, _, rfl⟩
        exact ⟨i, rfl⟩
      · intro e he
        rcases List.mem_map.mp he with ⟨p, _, rfl⟩
        exact ⟨p.1, p.2, rfl⟩
      · rw [List.map_map]
        exact dispatch_readers_fds sem _ loop.readers rs.1 rs.2 (by rw [← hd])

/-- Witness for `timers_dispatched_unconditionally_before_readers`: a loop
with one due non-repeating timer and one watched descriptor that is reported
ready. -/
theorem timers_dispatched_unconditionally_before_readers_witness :
    EventLoop.iterate (fun _ _ m => m) ⟨⟨[⟨some 1, 1, false⟩]⟩, [(3, 7)]⟩ 5 [3] =
      .ok (⟨⟨[]⟩, [(3, 7)]⟩, [Ev.timer 0, Ev.reader 3 7]) ∧
    (⟨⟨[]⟩, [(3, 7)]⟩ : EventLoop).timers =
      ((⟨[⟨some 1, 1, false⟩]⟩ : TimerManager).run_trace 5).1 :=
  have hiter : EventLoop.iterate (fun _ _ m => m)
      ⟨⟨[⟨some 1, 1, false⟩]⟩, [(3, 7)]⟩ 5 [3] =
      .ok (⟨⟨[]⟩, [(3, 7)]⟩, [Ev.timer 0, Ev.reader 3 7]) := by
    norm_num [EventLoop.iterate, TimerManager.sleep_time, Timer.sleep_time,
      TimerManager.run_trace, TimerManager.run_trace_from, Timer.run,
      dispatch_readers, lookup_reader]
  ⟨hiter, (timers_dispatched_unconditionally_before_readers (fun _ _ m => m)
    ⟨⟨[⟨some 1, 1, false⟩]⟩, [(3, 7)]⟩ 5 [3] ⟨⟨[]⟩, [(3, 7)]⟩
    [Ev.timer 0, Ev.reader 3 7] hiter).1⟩

/-- A callback semantics in which callback 10 re-registers descriptor 2 to
callback 30 (`watch_for_reading`) and every other callback is passive. -/
def replacing_sem : ℕ → ℕ → List (ℕ × ℕ) → List (ℕ × ℕ) :=
  fun cb _ m => if cb = 10 then watch_for_reading m 2 30 else m

/-- C10 counterexample: with descriptors 1 ↦ callback 10 and 2 ↦ callback 20
both ready, and callback 10 re-registering descriptor 2 to callback 30, the
loop's dispatch invokes callback 30 for descriptor 2 in the *same* iteration
— the live mapping, not the one in effect when the wait was entered (whose
snapshot dispatch would invoke 20). -/
theorem reader_dispatch_uses_live_mapping_counterexample :
    dispatch_readers replacing_sem [(1, 10), (2, 20)] [1, 2] =
      .ok ([(1, 10), (2, 30)], [(1, 10), (2, 30)]) ∧
    dispatch_readers_snapshot replacing_sem [(1, 10), (2, 20)] [(1, 10), (2, 20)] [1, 2] =
      .ok ([(1, 10), (2, 30)], [(1, 10), (2, 20)]) ∧
    ([(1, 10), (2, 30)] : List (ℕ × ℕ)) ≠ [(1, 10), (2, 20)] := by
  refine ⟨?_, ?_, by decide⟩ <;> rfl

/-- C10 amended: mutations of the descriptor mapping made from within a
callback never change which descriptors get dispatched in the iteration in
progress (the ready set was fixed when the wait was entered), but the
callback invoked for a ready descriptor is looked up in the live mapping at
dispatch time, so a replacement made by an earlier callback of the same
iteration is used for a later descriptor of that iteration.  When no
dispatched callback mutates the mapping, dispatch agrees with the wait-entry
snapshot: the mapping is unchanged and every invoked callback is the one
registered when the wait was entered. -/
theorem reader_mutation_not_retroactive_when_passive :
    ∀ (sem : ℕ → ℕ → List (ℕ × ℕ) → List (ℕ × ℕ)) (readers : List (ℕ × ℕ))
      (ready : List ℕ),
      (∀ cb fd m, sem cb fd m = m) →
      dispatch_readers sem readers ready =
        dispatch_readers_snapshot sem readers readers ready ∧
      ∀ rs trace, dispatch_readers sem readers ready = .ok (rs, trace) →
        rs = readers ∧ ∀ p ∈ trace, lookup_reader readers p.1 = some p.2 := by
  intro sem readers ready hpassive
  induction ready generalizing readers with
  | nil =>
    refine ⟨rfl, ?_⟩
    intro rs trace h
    simp only [dispatch_readers] at h
    cases h
    exact ⟨rfl, by simp⟩
  | cons fd rest ih =>
    constructor
    · cases hl : lookup_reader readers fd with
      | none => simp only [dispatch_readers, dispatch_readers_snapshot, hl]
      | some cb =>
        simp only [dispatch_readers, dispatch_readers_snapshot, hl, hpassive]
        rw [(ih readers).1]
    · intro rs trace h
      cases hl : lookup_reader readers fd with
      | none => simp only [dispatch_readers, hl] at h; cases h
      | some cb =>
        simp only [dispatch_readers, hl, hpassive] at h
        cases hd : dispatch_readers sem readers rest with
        | error e => rw [hd] at h; cases h
        | ok p =>
          rw [hd] at h
          cases h
          rcases (ih readers).2 p.1 p.2 (by rw [hd]) with ⟨hrs, htr⟩
          refine ⟨hrs, ?_⟩
          intro q hq
          rcases List.mem_cons.mp hq with rfl | hq
          · exact hl
          · exact htr q hq

/-- Witness for `reader_mutation_not_retroactive_when_passive` with a fully
passive callback semantics on two watched, ready descriptors. -/
theorem reader_mutation_not_retroactive_when_passive_witness :
    (∀ (cb fd : ℕ) (m : List (ℕ × ℕ)), (fun (_ _ : ℕ) m => m) cb fd m = m) ∧
    (dispatch_readers (fun _ _ m => m) [(1, 10), (2, 20)] [1, 2] =
        dispatch_readers_snapshot (fun _ _ m => m) [(1, 10), (2, 20)]
          [(1, 10), (2, 20)] [1, 2] ∧
      ∀ rs trace,
        dispatch_readers (fun _ _ m => m) [(1, 10), (2, 20)] [1, 2] = .ok (rs, trace) →
        rs = [(1, 10), (2, 20)] ∧
          ∀ p ∈ trace, lookup_reader [(1, 10), (2, 20)] p.1 = some p.2) :=
  ⟨fun _ _ _ => rfl,
   reader_mutation_not_retroactive_when_passive (fun _ _ m => m) [(1, 10), (2, 20)]
     [1, 2] (fun _ _ _ => rfl)⟩

/-- The data preparation at the top of `push_back_reader`'s inner
`reader(data)`: if fragments were pushed back, the new block is appended to
them, everything is joined (in push order) and the queue is cleared;
otherwise the block is delivered as read. -/
def push_back_deliver (pushed_back : List (List ℕ)) (block : List ℕ) : List ℕ :=
  if pushed_back = [] then block else (pushed_back ++ [block]).flatten

/-- One invocation of `push_back_reader`'s inner `reader`: the callback
receives the delivered data together with the `push_back` capability
(`pushed_back.append`); `cb data` is the list of fragments the callback
pushes back, in push order, which becomes the queue for the next
invocation.  Returns (delivered data, next queue). -/
def push_back_invoke (pushed_back : List (List ℕ)) (block : List ℕ)
    (cb : List ℕ → List (List ℕ)) : List ℕ × List (List ℕ) :=
  let data := push_back_deliver pushed_back block
  (data, cb data)

/-- C4: fragments pushed back during one `push_back_reader` callback
invocation are exactly the queue for the next invocation (never replayed
within the same one, whose delivered data depends only on the prior queue
and the new block), and at the next invocation they are delivered
concatenated in push order, prepended before the newly read bytes; in
particular pushing back the entire delivered block makes the next delivery
identical to it, prefixed to whatever new bytes arrive. -/
theorem push_back_round_trip :
    ∀ (pb : List (List ℕ)) (block block2 : List ℕ)
      (cb cb' : List ℕ → List (List ℕ)),
      (push_back_invoke pb block cb).1 = pb.flatten ++ block ∧
      (push_back_invoke pb block cb).2 = cb (pb.flatten ++ block) ∧
      (push_back_invoke (push_back_invoke pb block cb).2 block2 cb').1 =
        ((push_back_invoke pb block cb).2).flatten ++ block2 ∧
      (cb = (fun d => [d]) →
        (push_back_invoke (push_back_invoke pb block cb).2 block2 cb').1 =
          (push_back_invoke pb block cb).1 ++ block2) := by
  have hdel : ∀ (pb : List (List ℕ)) (b : List ℕ),
      push_back_deliver pb b = pb.flatten ++ b := by
    intro pb b
    by_cases hpb : pb = []
    · simp [push_back_deliver, hpb]
    · simp [push_back_deliver, hpb]
  intro pb block block2 cb cb'
  refine ⟨hdel pb block, by simp [push_back_invoke, hdel], hdel _ block2, ?_⟩
  intro hcb
  subst hcb
  simp [push_back_invoke, hdel]

/-- Witness for `push_back_round_trip`: push back the whole delivered block
`[1, 2]` and observe it again in front of the new bytes `[3]`. -/
theorem push_back_round_trip_witness :
    ((fun d : List ℕ => [d]) = (fun d : List ℕ => [d])) ∧
    (push_back_invoke (push_back_invoke [] [1, 2] (fun d => [d])).2 [3]
        (fun _ => [])).1 =
      (push_back_invoke [] [1, 2] (fun d => [d])).1 ++ [3] :=
  ⟨rfl, (push_back_round_trip [] [1, 2] [3] (fun d => [d]) (fun _ => [])).2.2.2 rfl⟩

/-- `data.index('\x0a')`: the position of the first newline byte, if any. -/
def find_newline : List ℕ → Option ℕ
  | [] => none
  | c :: rest => if c = 10 then some 0 else (find_newline rest).map (· + 1)

lemma find_newline_none {data : List ℕ} (h : find_newline data = none) :
    10 ∉ data := by
  induction data with
  | nil => simp
  | cons c rest ih =>
    by_cases hc : c = 10
    · simp [find_newline, hc] at h
    · simp only [find_newline, if_neg hc] at h
      rcases Option.map_eq_none'.mp h with h
      simp only [List.mem_cons]
      rintro (rfl | hm)
      · exact hc rfl
      · exact ih h hm

lemma find_newline_some {data : List ℕ} {i : ℕ} (h : find_newline data = some i) :
    i < data.length ∧ data.take (i + 1) = data.take i ++ [10] ∧ 10 ∉ data.take i := by
  induction data generalizing i with
  | nil => simp [find_newline] at h
  | cons c rest ih =>
    by_cases hc : c = 10
    · simp only [find_newline, if_pos hc] at h
      cases h
      subst hc
      simp
    · simp only [find_newline, if_neg hc] at h
      rcases Option.map_eq_some'.mp h with ⟨j, hj, rfl⟩
      rcases ih hj with ⟨h1, h2, h3⟩
      refine ⟨by simpa using h1, ?_, ?_⟩
      · simpa [List.take_succ_cons] using h2
      · show (10 : ℕ) ∉ c :: rest.take j
        simp only [List.mem_cons]
        rintro (rfl | hm)
        · exact hc rfl
        · exact h3 hm

/-- One invocation of `line_reader`'s inner `reader(data)`: while a newline
is found, the prefix up to and including it joins the buffered fragments to
form a line handed to the callback, and the loop continues on the rest;
finally a non-empty newline-free remainder is buffered.  Returns the new
fragment buffer and the lines delivered during this invocation, in order. -/
def line_reader_block (fragments : List (List ℕ)) (data : List ℕ) :
    List (List ℕ) × List (List ℕ) :=
  match hfn : find_newline data with
  | none => (if data = [] then fragments else fragments ++ [data], [])
  | some i =>
    let line := (fragments ++ [data.take (i + 1)]).flatten
    let r := line_reader_block [] (data.drop (i + 1))
    (r.1, line :: r.2)
termination_by data.length
decreasing_by
  have := (find_newline_some hfn).1
  simp only [List.length_drop]
  omega

/-- Feeding a sequence of blocks to a `line_reader`, accumulating the lines
delivered across all invocations. -/
def line_reader_feed (fragments : List (List ℕ)) :
    List (List ℕ) → List (List ℕ) × List (List ℕ)
  | [] => (fragments, [])
  | b :: bs =>
    let r := line_reader_block fragments b
    let r' := line_reader_feed r.1 bs
    (r'.1, r.2 ++ r'.2)

lemma line_reader_block_of_none {data : List ℕ} (fragments : List (List ℕ))
    (h : find_newline data = none) :
    line_reader_block fragments data =
      (if data = [] then fragments else fragments ++ [data], []) := by
  rw [line_reader_block]
  split
  · rfl
  · rename_i i hfn
    rw [h] at hfn
    cases hfn

lemma line_reader_block_of_some {data : List ℕ} {i : ℕ} (fragments : List (List ℕ))
    (h : find_newline data = some i) :
    line_reader_block fragments data =
      ((line_reader_block [] (data.drop (i + 1))).1,
       (fragments ++ [data.take (i + 1)]).flatten ::
         (line_reader_block [] (data.drop (i + 1))).2) := by
  rw [line_reader_block]
  split
  · rename_i hfn
    rw [h] at hfn
    cases hfn
  · rename_i j hfn
    rw [h] at hfn
    cases hfn
    rfl

lemma line_reader_block_spec :
    ∀ (n : ℕ) (data : List ℕ), data.length ≤ n → ∀ (fragments : List (List ℕ)),
      10 ∉ fragments.flatten →
      ((line_reader_block fragments data).2.flatten ++
          (line_reader_block fragments data).1.flatten = fragments.flatten ++ data) ∧
      (∀ l ∈ (line_reader_block fragments data).2, ∃ l', l = l' ++ [10] ∧ 10 ∉ l') ∧
      10 ∉ (line_reader_block fragments data).1.flatten := by
  intro n
  induction n with
  | zero =>
    intro data hlen fragments hfr
    have hdata : data = [] := List.length_eq_zero.mp (Nat.le_zero.mp hlen)
    subst hdata
    rw [line_reader_block_of_none fragments (by rfl)]
    simpa using hfr
  | succ n ih =>
    intro data hlen fragments hfr
    cases hfn : find_newline data with
    | none =>
      rw [line_reader_block_of_none fragments hfn]
      have hnl := find_newline_none hfn
      by_cases hdata : data = []
      · subst hdata
        simpa using hfr
      · simp only [if_neg hdata]
        refine ⟨by simp, by simp, ?_⟩
        simp only [List.flatten_append, List.flatten_cons, List.flatten_nil,
          List.append_nil, List.mem_append]
        rintro (h | h)
        · exact hfr h
        · exact hnl h
    | some i =>
      rcases find_newline_some hfn with ⟨hlt, htake, hnmem⟩
      have hlen' : (data.drop (i + 1)).length ≤ n := by
        simp only [List.length_drop]
        omega
      rcases ih (data.drop (i + 1)) hlen' [] (by simp) with ⟨ih1, ih2, ih3⟩
      rw [line_reader_block_of_some fragments hfn]
      refine ⟨?_, ?_, ih3⟩
      · simp only [List.flatten_cons, List.flatten_append, List.flatten_nil,
          List.append_nil, List.append_assoc]
        rw [ih1]
        simp only [List.flatten_nil, List.nil_append]
        rw [List.take_append_drop]
      · intro l hl
        rcases List.mem_cons.mp hl with rfl | hl
        · refine ⟨fragments.flatten ++ data.take i, ?_, ?_⟩
          · simp only [List.flatten_append, List.flatten_cons, List.flatten_nil,
              List.append_nil, htake, List.append_assoc]
          · simp only [List.mem_append]
            rintro (h | h)
            · exact hfr h
            · exact hnmem h
        · exact ih2 l hl

lemma line_reader_feed_spec :
    ∀ (blocks : List (List ℕ)) (fragments : List (List ℕ)),
      10 ∉ fragments.flatten →
      ((line_reader_feed fragments blocks).2.flatten ++
          (line_reader_feed fragments blocks).1.flatten =
        fragments.flatten ++ blocks.flatten) ∧
      (∀ l ∈ (line_reader_feed fragments blocks).2, ∃ l', l = l' ++ [10] ∧ 10 ∉ l') ∧
      10 ∉ (line_reader_feed fragments blocks).1.flatten := by
  intro blocks
  induction blocks with
  | nil =>
    intro fragments hfr
    simpa [line_reader_feed] using hfr
  | cons b bs ih =>
    intro fragments hfr
    rcases line_reader_block_spec b.length b le_rfl fragments hfr with ⟨h1, h2, h3⟩
    rcases ih (line_reader_block fragments b).1 h3 with ⟨ih1, ih2, ih3⟩
    simp only [line_reader_feed]
    refine ⟨?_, ?_, ih3⟩
    · simp only [List.flatten_append, List.flatten_cons, List.append_assoc]
      rw [ih1, ← List.append_assoc, h1, List.append_assoc]
    · intro l hl
      rcases List.mem_append.mp hl with hl | hl
      · exact h2 l hl
      · exact ih2 l hl

/-- C5: a `line_reader` delivers, across any sequence of blocks, exactly the
newline-terminated lines of the concatenated input, in order — the delivered
lines followed by the pending fragment reassemble the input exactly, every
delivered line ends with the newline it includes and contains no earlier
newline, and the pending fragment is newline-free (so this decomposition is
the unique one-callback-per-line one); in particular the blocks `"ab"`,
`"c\x0adef\x0a"`, `"gh"` produce exactly the lines `"abc\x0a"` and
`"def\x0a"` with `"gh"` pending. -/
theorem line_reader_one_callback_per_line :
    (∀ blocks : List (List ℕ),
      ((line_reader_feed [] blocks).2.flatten ++
          (line_reader_feed [] blocks).1.flatten = blocks.flatten) ∧
      (∀ l ∈ (line_reader_feed [] blocks).2, ∃ l', l = l' ++ [10] ∧ 10 ∉ l') ∧
      10 ∉ (line_reader_feed [] blocks).1.flatten) ∧
    line_reader_feed [] [[97, 98], [99, 10, 100, 101, 102, 10], [103, 104]] =
      ([[103, 104]], [[97, 98, 99, 10], [100, 101, 102, 10]]) := by
  constructor
  · intro blocks
    simpa using line_reader_feed_spec blocks [] (by simp)
  · have h0 : line_reader_block [] ([] : List ℕ) = ([], []) := by
      rw [line_reader_block_of_none [] (by rfl)]
      simp
    have h1 : line_reader_block [] [97, 98] = ([[97, 98]], []) := by
      rw [line_reader_block_of_none [] (by norm_num [find_newline])]
      simp
    have h3 : line_reader_block [] [100, 101, 102, 10] = ([], [[100, 101, 102, 10]]) := by
      rw [line_reader_block_of_some []
        (show find_newline [100, 101, 102, 10] = some 3 by norm_num [find_newline])]
      norm_num [h0]
    have h2 : line_reader_block [[97, 98]] [99, 10, 100, 101, 102, 10] =
        ([], [[97, 98, 99, 10], [100, 101, 102, 10]]) := by
      rw [line_reader_block_of_some [[97, 98]]
        (show find_newline [99, 10, 100, 101, 102, 10] = some 1 by
          norm_num [find_newline])]
      norm_num [h3]
    have h4 : line_reader_block [] [103, 104] = ([[103, 104]], []) := by
      rw [line_reader_block_of_none [] (by norm_num [find_newline])]
      simp
    simp [line_reader_feed, h1, h2, h4]

/-- Witness for `line_reader_one_callback_per_line`: the first delivered line
of the concrete run is newline-terminated with no interior newline. -/
theorem line_reader_one_callback_per_line_witness :
    [97, 98, 99, 10] ∈
      (line_reader_feed [] [[97, 98], [99, 10, 100, 101, 102, 10], [103, 104]]).2 ∧
    ∃ l', ([97, 98, 99, 10] : List ℕ) = l' ++ [10] ∧ 10 ∉ l' :=
  have hmem : [97, 98, 99, 10] ∈
      (line_reader_feed [] [[97, 98], [99, 10, 100, 101, 102, 10], [103, 104]]).2 := by
    rw [line_reader_one_callback_per_line.2]
    simp
  ⟨hmem, (line_reader_one_callback_per_line.1
    [[97, 98], [99, 10, 100, 101, 102, 10], [103, 104]]).2.1 _ hmem⟩

/-- `PacketReader.PACKET_DELIMITER = '\xf5\x5f'`. -/
def PACKET_DELIMITER : List ℕ := [245, 95]

/-- `PacketReader.find_packet_delimiter`: `data.index(PACKET_DELIMITER)`
returns the position of the first delimiter occurrence — the number of
dropped non-packet bytes the source logs — together with the data after the
delimiter (`data[delimiter_position + 2:]`), or `none` when there is no
occurrence (`ValueError` caught in the source). -/
def find_packet_delimiter : List ℕ → Option (ℕ × List ℕ)
  | x :: y :: rest =>
    if x = 245 ∧ y = 95 then some (0, rest)
    else (find_packet_delimiter (y :: rest)).map (fun p => (p.1 + 1, p.2))
  | _ => none

/-- `PacketReader.read_packet`: `data` begins just after a delimiter;
`data[0]` is the length byte (an `IndexError` on empty data), asserted
`>= 1`; with fewer than `length` bytes available it returns `none` ("not
enough data yet"); otherwise the payload `data[1:length]` (handed to the
packet callback in the source) and the remaining `data[length:]`. -/
def read_packet (data : List ℕ) : Except String (Option (List ℕ × List ℕ)) :=
  match data with
  | [] => .error "IndexError: string index out of range"
  | l :: _ =>
    if l < 1 then .error "AssertionError: length >= 1"
    else if data.length < l then .ok none
    else .ok (some ((data.take l).drop 1, data.drop l))

lemma find_packet_delimiter_length :
    ∀ {data : List ℕ} {pos : ℕ} {after : List ℕ},
      find_packet_delimiter data = some (pos, after) →
      pos + 2 + after.length = data.length := by
  intro data
  induction data with
  | nil => intro pos after h; simp [find_packet_delimiter] at h
  | cons x rest ih =>
    intro pos after h
    cases rest with
    | nil => simp [find_packet_delimiter] at h
    | cons y rest' =>
      by_cases hxy : x = 245 ∧ y = 95
      · simp only [find_packet_delimiter, if_pos hxy] at h
        cases h
        simp only [List.length_cons]
        omega
      · simp only [find_packet_delimiter, if_neg hxy] at h
        rcases Option.map_eq_some'.mp h with ⟨⟨p, a⟩, hp, hh⟩
        cases hh
        have := ih hp
        simp only [List.length_cons] at this ⊢
        omega

lemma read_packet_remaining_lt :
    ∀ {data pkt remaining : List ℕ},
      read_packet data = .ok (some (pkt, remaining)) →
      remaining.length < data.length := by
  intro data pkt remaining h
  cases data with
  | nil => simp [read_packet] at h
  | cons l rest =>
    by_cases hl : l < 1
    · simp [read_packet, hl] at h
    · by_cases hlen : (l :: rest).length < l
      · have hlen' : rest.length + 1 < l := by simpa using hlen
        simp [read_packet, hl, hlen'] at h
      · rw [read_packet] at h
        rw [if_neg hl, if_neg hlen] at h
        cases h
        simp only [List.length_drop, List.length_cons]
        omega

/-- The `while 1` loop body of `PacketReader.new_block`, as a recursion on
the remaining data.  In the `SEEKING_DELIMITER` state: when no delimiter is
found, all the data is dropped except a trailing `0xf5` byte, which is
pushed back as a possible first half of a split delimiter (`AssertionError`
on empty data, which the loop never passes here); when a delimiter is found,
the bytes before it count as dropped and the loop turns to `IN_PACKET` with
the bytes after it, returning at once if there are none.  In the
`IN_PACKET` state, `read_packet` either needs more data (everything is
pushed back), or yields a packet, after which the loop resumes seeking on
the non-empty remainder.  Returns (in-packet state, pushed-back bytes,
packets decoded, dropped-byte count) for this invocation. -/
def new_block_loop :
    Bool → List ℕ → List (List ℕ) → ℕ →
      Except String (Bool × List ℕ × List (List ℕ) × ℕ)
  | false, data, packets, dropped =>
    match hfd : find_packet_delimiter data with
    | none =>
      match data.getLast? with
      | none => .error "AssertionError: data"
      | some last =>
        if last = 245 then .ok (false, [245], packets, dropped + (data.length - 1))
        else .ok (false, [], packets, dropped + data.length)
    | some (pos, after) =>
      if after = [] then .ok (true, [], packets, dropped + pos)
      else new_block_loop true after packets (dropped + pos)
  | true, data, packets, dropped =>
    match hrp : read_packet data with
    | .error e => .error e
    | .ok none => .ok (true, data, packets, dropped)
    | .ok (some (pkt, remaining)) =>
      if remaining = [] then .ok (false, [], packets ++ [pkt], dropped)
      else new_block_loop false remaining (packets ++ [pkt]) dropped
termination_by _ data _ _ => data.length
decreasing_by
  · have := find_packet_delimiter_length hfd
    omega
  · exact read_packet_remaining_lt hrp

/-- `PacketReader.new_block(data, push_back)`: asserts the delivered data is
non-empty ("End-of-file reached on the serial port") and runs the decoding
loop. -/
def new_block (inPacket : Bool) (data : List ℕ) :
    Except String (Bool × List ℕ × List (List ℕ) × ℕ) :=
  if data = [] then .error "AssertionError: End-of-file reached on the serial port"
  else new_block_loop inPacket data [] 0

/-- A `PacketReader` between two deliveries of its `push_back_reader`: the
`in_packet` flag, the flattened pushed-back queue the combinator holds, and
the accumulated decoded packets and dropped-byte count. -/
structure PRState where
  inPacket : Bool
  buffer : List ℕ
  packets : List (List ℕ)
  dropped : ℕ
  deriving Repr, DecidableEq

/-- One readiness event: the push-back combinator prepends the held bytes to
the newly read block and invokes `new_block`. -/
def PRState.feed (st : PRState) (block : List ℕ) : Except String PRState :=
  match new_block st.inPacket (st.buffer ++ block) with
  | .error e => .error e
  | .ok (ip, buf, pks, dr) => .ok ⟨ip, buf, st.packets ++ pks, st.dropped + dr⟩

/-- Feeding a sequence of read blocks to a `PacketReader`. -/
def PRState.feed_all (st : PRState) : List (List ℕ) → Except String PRState
  | [] => .ok st
  | b :: bs =>
    match st.feed b with
    | .error e => .error e
    | .ok st' => st'.feed_all bs

lemma nbl_seek_push {data : List ℕ} (pk : List (List ℕ)) (dr : ℕ)
    (h : find_packet_delimiter data = none) (hl : data.getLast? = some 245) :
    new_block_loop false data pk dr = .ok (false, [245], pk, dr + (data.length - 1)) := by
  rw [new_block_loop]
  split
  · rw [hl]
    simp
  · rename_i pos after hfd
    rw [h] at hfd
    cases hfd

lemma nbl_seek_drop {data : List ℕ} {c : ℕ} (pk : List (List ℕ)) (dr : ℕ)
    (h : find_packet_delimiter data = none) (hl : data.getLast? = some c)
    (hc : c ≠ 245) :
    new_block_loop false data pk dr = .ok (false, [], pk, dr + data.length) := by
  rw [new_block_loop]
  split
  · rw [hl]
    simp [hc]
  · rename_i pos after hfd
    rw [h] at hfd
    cases hfd

lemma nbl_seek_found_end {data : List ℕ} {pos : ℕ} (pk : List (List ℕ)) (dr : ℕ)
    (h : find_packet_delimiter data = some (pos, [])) :
    new_block_loop false data pk dr = .ok (true, [], pk, dr + pos) := by
  rw [new_block_loop]
  split
  · rename_i hfd
    rw [h] at hfd
    cases hfd
  · rename_i p a hfd
    rw [h] at hfd
    cases hfd
    simp

lemma nbl_seek_found_cont {data : List ℕ} {pos : ℕ} {after : List ℕ}
    (pk : List (List ℕ)) (dr : ℕ)
    (h : find_packet_delimiter data = some (pos, after)) (ha : after ≠ []) :
    new_block_loop false data pk dr = new_block_loop true after pk (dr + pos) := by
  rw [new_block_loop]
  split
  · rename_i hfd
    rw [h] at hfd
    cases hfd
  · rename_i p a hfd
    rw [h] at hfd
    cases hfd
    simp [ha]

lemma nbl_packet_incomplete {data : List ℕ} (pk : List (List ℕ)) (dr : ℕ)
    (h : read_packet data = .ok none) :
    new_block_loop true data pk dr = .ok (true, data, pk, dr) := by
  conv_lhs => rw [new_block_loop]
  split
  · rename_i e hrp
    rw [h] at hrp
    cases hrp
  · rfl
  · rename_i pkt remaining hrp
    rw [h] at hrp
    cases hrp

lemma nbl_packet_done {data pkt : List ℕ} (pk : List (List ℕ)) (dr : ℕ)
    (h : read_packet data = .ok (some (pkt, []))) :
    new_block_loop true data pk dr = .ok (false, [], pk ++ [pkt], dr) := by
  conv_lhs => rw [new_block_loop]
  split
  · rename_i e hrp
    rw [h] at hrp
    cases hrp
  · rename_i hrp
    rw [h] at hrp
    cases hrp
  · rename_i pkt' remaining hrp
    rw [h] at hrp
    cases hrp
    simp

lemma nbl_packet_cont {data pkt remaining : List ℕ} (pk : List (List ℕ)) (dr : ℕ)
    (h : read_packet data = .ok (some (pkt, remaining))) (hr : remaining ≠ []) :
    new_block_loop true data pk dr = new_block_loop false remaining (pk ++ [pkt]) dr := by
  conv_lhs => rw [new_block_loop]
  split
  · rename_i e hrp
    rw [h] at hrp
    cases hrp
  · rename_i hrp
    rw [h] at hrp
    cases hrp
  · rename_i pkt' remaining' hrp
    rw [h] at hrp
    cases hrp
    simp [hr]

lemma nbl_lone_half_delim (pk : List (List ℕ)) (dr : ℕ) :
    new_block_loop false [245] pk dr = .ok (false, [245], pk, dr) := by
  simpa using @nbl_seek_push [245] pk dr rfl rfl

lemma nbl_exact_delim (pk : List (List ℕ)) (dr : ℕ) :
    new_block_loop false [245, 95] pk dr = .ok (true, [], pk, dr) := by
  simpa using @nbl_seek_found_end [245, 95] 0 pk dr (by decide)

lemma nbl_delim_then (t : List ℕ) (pk : List (List ℕ)) (dr : ℕ) (ht : t ≠ []) :
    new_block_loop false (245 :: 95 :: t) pk dr = new_block_loop true t pk dr := by
  simpa using nbl_seek_found_cont pk dr
    (show find_packet_delimiter (245 :: 95 :: t) = some (0, t) by
      simp [find_packet_delimiter]) ht

lemma nbl_noise_only {b : ℕ} (pk : List (List ℕ)) (dr : ℕ) (hb : b ≠ 245) :
    new_block_loop false [b] pk dr = .ok (false, [], pk, dr + 1) := by
  simpa using @nbl_seek_drop [b] b pk dr rfl rfl hb

lemma nbl_noise_half_delim (b : ℕ) (pk : List (List ℕ)) (dr : ℕ) :
    new_block_loop false [b, 245] pk dr = .ok (false, [245], pk, dr + 1) := by
  simpa using nbl_seek_push pk dr
    (show find_packet_delimiter [b, 245] = none by simp [find_packet_delimiter])
    (by simp)

lemma nbl_noise_exact_delim (b : ℕ) (pk : List (List ℕ)) (dr : ℕ) :
    new_block_loop false [b, 245, 95] pk dr = .ok (true, [], pk, dr + 1) := by
  simpa using nbl_seek_found_end pk dr
    (show find_packet_delimiter [b, 245, 95] = some (1, []) by
      simp [find_packet_delimiter])

lemma nbl_noise_delim_then (b : ℕ) (t : List ℕ) (pk : List (List ℕ)) (dr : ℕ)
    (ht : t ≠ []) :
    new_block_loop false (b :: 245 :: 95 :: t) pk dr = new_block_loop true t pk (dr + 1) := by
  simpa using nbl_seek_found_cont pk dr
    (show find_packet_delimiter (b :: 245 :: 95 :: t) = some (1, t) by
      simp [find_packet_delimiter]) ht

lemma nbl_len_only (pk : List (List ℕ)) (dr : ℕ) :
    new_block_loop true [3] pk dr = .ok (true, [3], pk, dr) :=
  nbl_packet_incomplete pk dr (by simp [read_packet])

lemma nbl_len_one_byte (p0 : ℕ) (pk : List (List ℕ)) (dr : ℕ) :
    new_block_loop true [3, p0] pk dr = .ok (true, [3, p0], pk, dr) :=
  nbl_packet_incomplete pk dr (by simp [read_packet])

lemma nbl_full_packet (p0 p1 : ℕ) (pk : List (List ℕ)) (dr : ℕ) :
    new_block_loop true [3, p0, p1] pk dr = .ok (false, [], pk ++ [[p0, p1]], dr) :=
  nbl_packet_done pk dr (by simp [read_packet])

lemma nbl_empty_packet (pk : List (List ℕ)) (dr : ℕ) :
    new_block_loop true [1] pk dr = .ok (false, [], pk ++ [[]], dr) :=
  nbl_packet_done pk dr (by simp [read_packet])

lemma nbl_packet_then_half (p0 p1 : ℕ) (pk : List (List ℕ)) (dr : ℕ) :
    new_block_loop true [3, p0, p1, 245] pk dr =
      .ok (false, [245], pk ++ [[p0, p1]], dr) := by
  rw [nbl_packet_cont pk dr
    (show read_packet (3 :: p0 :: p1 :: [245]) = .ok (some ([p0, p1], [245])) by
      simp [read_packet]) (by simp)]
  exact nbl_lone_half_delim _ _

lemma nbl_packet_then_delim (p0 p1 : ℕ) (pk : List (List ℕ)) (dr : ℕ) :
    new_block_loop true [3, p0, p1, 245, 95] pk dr =
      .ok (true, [], pk ++ [[p0, p1]], dr) := by
  rw [nbl_packet_cont pk dr
    (show read_packet (3 :: p0 :: p1 :: [245, 95]) = .ok (some ([p0, p1], [245, 95])) by
      simp [read_packet]) (by simp)]
  exact nbl_exact_delim _ _

lemma nbl_two_packets (p0 p1 : ℕ) (pk : List (List ℕ)) (dr : ℕ) :
    new_block_loop true [3, p0, p1, 245, 95, 1] pk dr =
      .ok (false, [], pk ++ [[p0, p1], []], dr) := by
  rw [nbl_packet_cont pk dr
    (show read_packet (3 :: p0 :: p1 :: [245, 95, 1]) =
        .ok (some ([p0, p1], [245, 95, 1])) by simp [read_packet]) (by simp)]
  rw [nbl_delim_then [1] _ _ (by simp)]
  rw [nbl_empty_packet]
  simp

/-- The test-vector byte stream of the claim: one noise byte, a delimiter,
length byte 3, two payload bytes, a delimiter, length byte 1. -/
def packet_msg (b p0 p1 : ℕ) : List ℕ := [b, 245, 95, 3, p0, p1, 245, 95, 1]

/-- The `PacketReader` configuration reached after consuming the first `k`
bytes of `packet_msg`, however those bytes were split into non-empty blocks
(established by `packet_cfg_step`). -/
def packet_cfg (b p0 p1 : ℕ) (k : ℕ) : PRState :=
  if k = 0 then ⟨false, [], [], 0⟩
  else if k = 1 then
    (if b = 245 then ⟨false, [245], [], 0⟩ else ⟨false, [], [], 1⟩)
  else if k = 2 then ⟨false, [245], [], 1⟩
  else if k = 3 then ⟨true, [], [], 1⟩
  else if k = 4 then ⟨true, [3], [], 1⟩
  else if k = 5 then ⟨true, [3, p0], [], 1⟩
  else if k = 6 then ⟨false, [], [[p0, p1]], 1⟩
  else if k = 7 then ⟨false, [245], [[p0, p1]], 1⟩
  else if k = 8 then ⟨true, [], [[p0, p1]], 1⟩
  else ⟨false, [], [[p0, p1], []], 1⟩

lemma packet_cfg_step (b p0 p1 : ℕ) :
    ∀ k m : ℕ, 1 ≤ m → k + m ≤ 9 →
      PRState.feed (packet_cfg b p0 p1 k) (((packet_msg b p0 p1).drop k).take m) =
        .ok (packet_cfg b p0 p1 (k + m)) := by
  intro k m hm hkm
  have hk : k ≤ 8 := by omega
  have hm9 : m ≤ 9 := by omega
  interval_cases k <;> interval_cases m <;>
    first
      | omega
      | (rcases eq_or_ne b 245 with hb | hb <;>
          first
            | (subst hb
               simp [packet_cfg, packet_msg, PRState.feed, new_block,
                 nbl_lone_half_delim, nbl_exact_delim, nbl_delim_then, nbl_noise_only,
                 nbl_noise_half_delim, nbl_noise_exact_delim, nbl_noise_delim_then,
                 nbl_len_only, nbl_len_one_byte, nbl_full_packet, nbl_empty_packet,
                 nbl_packet_then_half, nbl_packet_then_delim, nbl_two_packets])
            | simp [packet_cfg, packet_msg, PRState.feed, new_block, hb,
                nbl_lone_half_delim, nbl_exact_delim, nbl_delim_then, nbl_noise_only,
                nbl_noise_half_delim, nbl_noise_exact_delim, nbl_noise_delim_then,
                nbl_len_only, nbl_len_one_byte, nbl_full_packet, nbl_empty_packet,
                nbl_packet_then_half, nbl_packet_then_delim, nbl_two_packets])

lemma packet_feed_all_from (b p0 p1 : ℕ) :
    ∀ (blocks : List (List ℕ)) (k : ℕ), k ≤ 9 →
      (∀ blk ∈ blocks, blk ≠ []) →
      blocks.flatten = (packet_msg b p0 p1).drop k →
      PRState.feed_all (packet_cfg b p0 p1 k) blocks =
        .ok (packet_cfg b p0 p1 9) := by
  intro blocks
  induction blocks with
  | nil =>
    intro k hk _ hflat
    have hlen : ((packet_msg b p0 p1).drop k).length = 9 - k := by
      simp [packet_msg]
    rw [← hflat] at hlen
    simp only [List.flatten_nil, List.length_nil] at hlen
    have hk9 : k = 9 := by omega
    subst hk9
    rfl
  | cons blk bs ih =>
    intro k hk hne hflat
    have hblk : blk ≠ [] := hne blk (List.mem_cons_self _ _)
    have hm : 1 ≤ blk.length := List.length_pos.mpr hblk
    simp only [List.flatten_cons] at hflat
    have hkm : k + blk.length ≤ 9 := by
      have hlen := congrArg List.length hflat
      simp only [List.length_append, List.length_drop] at hlen
      have : (packet_msg b p0 p1).length = 9 := by simp [packet_msg]
      omega
    have htake : ((packet_msg b p0 p1).drop k).take blk.length = blk := by
      rw [← hflat]
      exact List.take_left blk bs.flatten
    have hdrop : bs.flatten = (packet_msg b p0 p1).drop (k + blk.length) := by
      have h1 : (blk ++ bs.flatten).drop blk.length = bs.flatten :=
        List.drop_left blk bs.flatten
      rw [hflat] at h1
      rw [← h1, List.drop_drop]
    have hstep := packet_cfg_step b p0 p1 k blk.length hm hkm
    rw [htake] at hstep
    simp only [PRState.feed_all, hstep]
    exact ih (k + blk.length) hkm (fun x hx => hne x (List.mem_cons_of_mem _ hx)) hdrop

/-- C3: a `PacketReader` fed the byte stream made of one noise byte `b`, the
delimiter `f5 5f`, length byte 3, two payload bytes `p0 p1`, the delimiter
again and length byte 1 — split into non-empty blocks in any way whatsoever —
decodes exactly two packets, first the two-byte payload `[p0, p1]` and then
the empty payload, reports exactly 1 dropped noise byte, and ends seeking
with nothing pushed back. -/
theorem packet_reader_two_packets_one_drop :
    ∀ (b p0 p1 : ℕ) (blocks : List (List ℕ)),
      (∀ blk ∈ blocks, blk ≠ []) →
      blocks.flatten = [b, 245, 95, 3, p0, p1, 245, 95, 1] →
      PRState.feed_all ⟨false, [], [], 0⟩ blocks =
        .ok ⟨false, [], [[p0, p1], []], 1⟩ := by
  intro b p0 p1 blocks hne hflat
  have h0 : packet_cfg b p0 p1 0 = ⟨false, [], [], 0⟩ := by norm_num [packet_cfg]
  have h9 : packet_cfg b p0 p1 9 = ⟨false, [], [[p0, p1], []], 1⟩ := by
    norm_num [packet_cfg]
  have h := packet_feed_all_from b p0 p1 blocks 0 (by norm_num) hne
    (by simpa [packet_msg] using hflat)
  rw [h0, h9] at h
  exact h

/-- Witness for `packet_reader_two_packets_one_drop`: noise byte 66 and
payload `[97, 98]`, delivered in three blocks that split the stream inside
the first packet's payload and inside the second delimiter. -/
theorem packet_reader_two_packets_one_drop_witness :
    (∀ blk ∈ [[66, 245], [95, 3, 97], [98, 245], [95, 1]], blk ≠ ([] : List ℕ)) ∧
    ([[66, 245], [95, 3, 97], [98, 245], [95, 1]] : List (List ℕ)).flatten =
      [66, 245, 95, 3, 97, 98, 245, 95, 1] ∧
    PRState.feed_all ⟨false, [], [], 0⟩ [[66, 245], [95, 3, 97], [98, 245], [95, 1]] =
      .ok ⟨false, [], [[97, 98], []], 1⟩ :=
  ⟨by decide, by decide,
   packet_reader_two_packets_one_drop 66 97 98
     [[66, 245], [95, 3, 97], [98, 245], [95, 1]] (by decide) (by decide)⟩

/-- Modelled from the spec: the treatment of a block read it mandates for
every block-based reader — "a read that returns zero bytes is an
end-of-stream condition and is a fatal error"; a non-empty block is
delivered unchanged.  (The generic readers in the source have no such check;
only `PacketReader.new_block` asserts it.) -/
def block_read_spec (data : List ℕ) : Except String (List ℕ) :=
  if data = [] then .error "end of stream" else .ok data

/-- C9 counterexample: a zero-byte read is not fatal for the generic
readers: the block/push-back pipeline hands the empty block straight to the
callback and the line reader absorbs it silently with no error and no state
change, whereas the spec-mandated treatment is an error. -/
theorem zero_byte_read_not_fatal_counterexample :
    (push_back_invoke [] [] (fun _ => [])).1 = [] ∧
    line_reader_block [] [] = ([], []) ∧
    block_read_spec [] = .error "end of stream" := by
  refine ⟨rfl, ?_, rfl⟩
  rw [@line_reader_block_of_none [] [] rfl]
  simp

/-- C9 amended: only the `PacketReader` treats a zero-byte delivery as an
end-of-stream fatal error (`new_block` raises an `AssertionError` saying
end-of-file "should not happen", and so does a feed when nothing was pushed
back); the generic block and push-back readers deliver the empty block to
their callback unchanged, and the line reader delivers nothing and keeps its
buffered fragments, decoding continuing. -/
theorem zero_byte_read_fatal_only_in_packet_reader :
    (∀ inPacket : Bool, new_block inPacket [] =
      .error "AssertionError: End-of-file reached on the serial port") ∧
    (∀ st : PRState, st.buffer = [] → st.feed [] =
      .error "AssertionError: End-of-file reached on the serial port") ∧
    (∀ cb : List ℕ → List (List ℕ), (push_back_invoke [] [] cb).1 = []) ∧
    (∀ fragments : List (List ℕ), line_reader_block fragments [] = (fragments, [])) := by
  refine ⟨fun _ => rfl, ?_, fun _ => rfl, ?_⟩
  · intro st hbuf
    simp [PRState.feed, hbuf, new_block]
  · intro fragments
    rw [@line_reader_block_of_none [] fragments rfl]
    simp

/-- Witness for `zero_byte_read_fatal_only_in_packet_reader` at an in-packet
reader state with an empty push-back queue. -/
theorem zero_byte_read_fatal_only_in_packet_reader_witness :
    (⟨true, [], [], 0⟩ : PRState).buffer = [] ∧
    PRState.feed ⟨true, [], [], 0⟩ [] =
      .error "AssertionError: End-of-file reached on the serial port" ∧
    line_reader_block [[103, 104]] [] = ([[103, 104]], []) :=
  ⟨rfl, zero_byte_read_fatal_only_in_packet_reader.2.1 ⟨true, [], [], 0⟩ rfl,
   zero_byte_read_fatal_only_in_packet_reader.2.2.2 [[103, 104]]⟩


